import Mathlib

/-!
Verification of the crypto-usage-analyzer aggregation-and-layout engine.

The development shallowly embeds the Rust sources:
  * `src/data.rs`    — `AuditEvent`, `TreeNode`, tree building, time range,
  * `src/sunburst.rs` — `Segment`, radial layout, polar hit-testing, the
    click/zoom/selection state machine, and the hash-based color function.

Machine integers are modelled as `Nat` with explicit wraparound where the
source wraps (`u32` arithmetic in `get_color`); `f64` geometry is modelled
over an arbitrary `LinearOrderedField` (instantiated at `ℚ` for executable
witnesses and at `ℝ` with the genuine `2·π` sweep for the layout theorems).
Rust's nested vectors of children are represented by the mutually inductive
list types `TreeList` / `EventList` (isomorphic to `List _`), which lets all
recursions stay structural and hence computable by `decide` / `rfl`.
-/

/-- Model of `serde_json::Value` restricted to the shapes the analyzer
reads: strings, integral numbers, booleans and null.  (`as_u64` on a
non-integral or out-of-range number returns `None` in serde; numbers are
modelled as integers, which covers every value the source inspects.) -/
inductive JsonValue where
  | str (s : String)
  | num (n : Int)
  | bool (b : Bool)
  | null
deriving DecidableEq, Repr

/-- Model of `serde_json::Value::as_str`. -/
def JsonValue.as_str : JsonValue → Option String
  | .str s => some s
  | _ => none

/-- Model of `serde_json::Value::as_u64`: an integral number in `[0, 2^64)`. -/
def JsonValue.as_u64 : JsonValue → Option Nat
  | .num n => if 0 ≤ n ∧ n < 2 ^ 64 then some n.toNat else none
  | _ => none

/-- Model of the `Display` rendering of a `serde_json::Value`, used by the
source's `format!("ciphersuite {}", cs)` and `format!("{} bits", bits)`. -/
def JsonValue.display : JsonValue → String
  | .str s => "\"" ++ s ++ "\""
  | .num n => toString n
  | .bool b => if b then "true" else "false"
  | .null => "null"

/-- Model of `HashMap<String, Value>::get`: the events map of an audit event
is modelled as an association list with first-match lookup (a `HashMap` has
unique keys, so the representation is faithful). -/
def lookupKey (k : String) : List (String × JsonValue) → Option JsonValue
  | [] => none
  | (k', v) :: rest => if k' = k then some v else lookupKey k rest

mutual
/-- Model of `AuditEvent` (src/data.rs): `context`, `origin`, `start`/`end`
timestamps (`u64`, modelled as `Nat`), the loosely typed `events` map and the
recursively nested `spans`.  The Rust field `end` is a Lean keyword and is
named `stop` here. -/
inductive AuditEvent where
  | mk (context : String) (origin : String) (start : Nat) (stop : Nat)
       (events : List (String × JsonValue)) (spans : EventList)
deriving DecidableEq, Repr
/-- Mirror of `Vec<AuditEvent>` used for the nested `spans` field. -/
inductive EventList where
  | nil
  | cons (head : AuditEvent) (tail : EventList)
deriving DecidableEq, Repr
end

def AuditEvent.context : AuditEvent → String
  | .mk c _ _ _ _ _ => c

def AuditEvent.origin : AuditEvent → String
  | .mk _ o _ _ _ _ => o

def AuditEvent.start : AuditEvent → Nat
  | .mk _ _ s _ _ _ => s

/-- The `end` timestamp of the event. -/
def AuditEvent.stop : AuditEvent → Nat
  | .mk _ _ _ e _ _ => e

def AuditEvent.events : AuditEvent → List (String × JsonValue)
  | .mk _ _ _ _ ev _ => ev

def AuditEvent.spans : AuditEvent → EventList
  | .mk _ _ _ _ _ sp => sp

/-- Plain-list view of an `EventList`. -/
def EventList.toList : EventList → List AuditEvent
  | .nil => []
  | .cons e rest => e :: rest.toList

/-- Inverse of `EventList.toList`. -/
def EventList.ofList : List AuditEvent → EventList
  | [] => .nil
  | e :: rest => .cons e (EventList.ofList rest)

/-- Model of `str::starts_with` on the underlying character sequences. -/
def strStartsWith (s p : String) : Bool :=
  p.data.isPrefixOf s.data

/-- `AuditEvent::name` (src/data.rs:16-22):
`events.get("name").and_then(as_str).unwrap_or("unknown")`. -/
def AuditEvent.name (e : AuditEvent) : String :=
  match lookupKey "name" e.events with
  | some v =>
    match v.as_str with
    | some s => s
    | none => "unknown"
  | none => "unknown"

/-- `AuditEvent::format_details` (src/data.rs:24-79).  The `details` vector
grown by `push` is modelled as list concatenation in push order. -/
def AuditEvent.format_details (e : AuditEvent) : String :=
  let name := e.name
  let details : List String :=
    if strStartsWith name "tls::handshake_" then
      (match lookupKey "tls::protocol_version" e.events with
       | some version =>
         match version.as_u64 with
         | some 772 => ["TLS 1.3"]
         | some 771 => ["TLS 1.2"]
         | some v => ["version " ++ toString v]
         | none => []
       | none => []) ++
      (match lookupKey "tls::ciphersuite" e.events with
       | some cs => ["ciphersuite " ++ cs.display]
       | none => [])
    else if name = "tls::sign" ∨ name = "tls::verify" then
      match lookupKey "tls::signature_algorithm" e.events with
      | some sig =>
        match sig.as_u64 with
        | some 1027 => ["ecdsa_secp256r1_sha256"]
        | some 2052 => ["rsa_pss_rsae_sha256"]
        | some _ => ["unknown"]
        | none => []
      | none => []
    else if name = "tls::key_exchange" then
      match lookupKey "tls::group" e.events with
      | some group =>
        match group.as_u64 with
        | some 23 => ["secp256r1"]
        | some 4588 => ["X25519MLKEM768"]
        | some _ => ["unknown"]
        | none => []
      | none => []
    else if strStartsWith name "pk::" then
      (match lookupKey "pk::algorithm" e.events with
       | some algo =>
         match algo.as_str with
         | some a => [a]
         | none => []
       | none => []) ++
      (match lookupKey "pk::bits" e.events with
       | some bits => [bits.display ++ " bits"]
       | none => [])
    else []
  if details.isEmpty then name
  else name ++ " [" ++ String.intercalate ", " details ++ "]"

mutual
/-- Model of `TreeNode` (src/data.rs:82-87): display `name`, aggregate
`value` (`usize`, modelled as `Nat`) and the ordered `children`. -/
inductive TreeNode where
  | mk (name : String) (value : Nat) (children : TreeList)
deriving DecidableEq, Repr
/-- Mirror of `Vec<TreeNode>` used for the `children` field. -/
inductive TreeList where
  | nil
  | cons (head : TreeNode) (tail : TreeList)
deriving DecidableEq, Repr
end

def TreeNode.name : TreeNode → String
  | .mk n _ _ => n

def TreeNode.value : TreeNode → Nat
  | .mk _ v _ => v

def TreeNode.children : TreeNode → TreeList
  | .mk _ _ cs => cs

/-- Plain-list view of a `TreeList`. -/
def TreeList.toList : TreeList → List TreeNode
  | .nil => []
  | .cons c rest => c :: rest.toList

/-- Inverse of `TreeList.toList`. -/
def TreeList.ofList : List TreeNode → TreeList
  | [] => .nil
  | c :: rest => .cons c (TreeList.ofList rest)

/-- Sum of the `value` fields of a list of children. -/
def sumValues : TreeList → Nat
  | .nil => 0
  | .cons c rest => c.value + sumValues rest

mutual
/-- `TreeNode::update_values` (src/data.rs:169-181): leaves keep their
value, an internal node's value becomes the sum of its (updated) children's
values.  The Rust method mutates in place and returns the new value; the
model returns the updated node. -/
def update_values : TreeNode → TreeNode
  | .mk n v cs =>
    match cs with
    | .nil => .mk n v .nil
    | .cons c rest =>
      let cs' := update_values_list (.cons c rest)
      .mk n (sumValues cs') cs'
def update_values_list : TreeList → TreeList
  | .nil => .nil
  | .cons c rest => .cons (update_values c) (update_values_list rest)
end

mutual
/-- `TreeNode::build_event_tree` (src/data.rs:155-167): label via
`format_details`, value 1, children from the nested spans in order. -/
def build_event_tree : AuditEvent → TreeNode
  | .mk c o s e ev sp => .mk (AuditEvent.format_details (.mk c o s e ev sp)) 1 (build_event_forest sp)
def build_event_forest : EventList → TreeList
  | .nil => .nil
  | .cons e rest => .cons (build_event_tree e) (build_event_forest rest)
end

/-- One step of grouping by context: append the event to its context's
bucket, or open a new bucket at the end. -/
def addToGroups (gs : List (String × List AuditEvent)) (e : AuditEvent) :
    List (String × List AuditEvent) :=
  match gs with
  | [] => [(e.context, [e])]
  | (c, es) :: rest =>
    if c = e.context then (c, es ++ [e]) :: rest
    else (c, es) :: addToGroups rest e

/-- Grouping of the top-level events by `context` (src/data.rs:127-134).
The source groups via `HashMap`, whose iteration order is unspecified; the
model fixes first-occurrence order.  Every claim proved below is insensitive
to the order of the context buckets. -/
def groupByContext (events : List AuditEvent) : List (String × List AuditEvent) :=
  events.foldl addToGroups []

/-- `TreeNode::from_events` (src/data.rs:120-153): synthetic root labelled
"all" with value 0, one child per context (initial value = number of
top-level events in the context), events materialized under it, then the
bottom-up `update_values` pass. -/
def from_events (events : List AuditEvent) : TreeNode :=
  let groups := groupByContext events
  let contextNodes := groups.map fun g =>
    TreeNode.mk g.1 g.2.length (TreeList.ofList (g.2.map build_event_tree))
  update_values (TreeNode.mk "all" 0 (TreeList.ofList contextNodes))

mutual
/-- Weight-conservation predicate: every node with a non-empty children
list has `value` equal to the sum of the children's values, recursively. -/
def weightOk : TreeNode → Bool
  | .mk _ v cs =>
    (match cs with
     | .nil => true
     | _ => v == sumValues cs) && weightOkList cs
def weightOkList : TreeList → Bool
  | .nil => true
  | .cons c rest => weightOk c && weightOkList rest
end

/-- `u64::MAX`. -/
def u64Max : Nat := 2 ^ 64 - 1

mutual
/-- The nested helper `update_range` of `AuditEvent::get_time_range`
(src/data.rs:98-105): fold the event's own `start`/`end` into the running
minimum/maximum, then recurse over the nested spans in order. -/
def update_range : AuditEvent → Nat → Nat → Nat × Nat
  | .mk _ _ s e _ sp, mn, mx => update_range_spans sp (min mn s) (max mx e)
def update_range_spans : EventList → Nat → Nat → Nat × Nat
  | .nil, mn, mx => (mn, mx)
  | .cons e rest, mn, mx =>
    let p := update_range e mn mx
    update_range_spans rest p.1 p.2
end

/-- The top-level `for event in events` loop of `get_time_range`. -/
def update_range_top : List AuditEvent → Nat → Nat → Nat × Nat
  | [], mn, mx => (mn, mx)
  | e :: rest, mn, mx =>
    let p := update_range e mn mx
    update_range_top rest p.1 p.2

/-- `AuditEvent::get_time_range` (src/data.rs:90-116): `None` on empty
input; otherwise accumulate from `min_start = u64::MAX`, `max_end =
u64::MIN = 0`, and return `None` if the accumulators still hold their
initial values, else `Some((min_start, max_end))`. -/
def get_time_range (events : List AuditEvent) : Option (Nat × Nat) :=
  if events.isEmpty then none
  else
    let p := update_range_top events u64Max 0
    if p.1 = u64Max ∨ p.2 = 0 then none else some p

mutual
/-- The event together with all of its recursively nested spans, in
traversal order (the event itself first). -/
def allNodes : AuditEvent → List AuditEvent
  | .mk c o s e ev sp => .mk c o s e ev sp :: allNodesSpans sp
def allNodesSpans : EventList → List AuditEvent
  | .nil => []
  | .cons e rest => allNodes e ++ allNodesSpans rest
end

/-- The accumulated minimum `start` over all events and nested spans,
seeded with `u64::MAX`, in the source's traversal order. -/
def minStartAll (events : List AuditEvent) : Nat :=
  ((events.flatMap allNodes).map AuditEvent.start).foldl min u64Max

/-- The accumulated maximum `end` over all events and nested spans, seeded
with `0`, in the source's traversal order. -/
def maxEndAll (events : List AuditEvent) : Nat :=
  ((events.flatMap allNodes).map AuditEvent.stop).foldl max 0

section Geometry

variable {α : Type} [LinearOrderedField α]

/-- Model of `Segment` (src/sunburst.rs:15-23).  Angles and radii are `f64`
in the source; they are modelled over an arbitrary linear ordered field
(`ℚ` for executable witnesses, `ℝ` with the genuine `2·π` sweep for the
layout theorems). -/
structure Segment (α : Type) where
  node : TreeNode
  start_angle : α
  end_angle : α
  inner_radius : α
  outer_radius : α
  depth : Nat
deriving DecidableEq

/-- The angle normalization of `Segment::contains_point`: `atan2` results
in `(-π, π]` are shifted by `2·π` when negative.  `twoPi` abstracts the
source's `2.0 * PI`. -/
def normAngle (twoPi ang : α) : α :=
  if ang < 0 then ang + twoPi else ang

/-- `Segment::contains_point` (src/sunburst.rs:26-41) after the
Cartesian-to-polar conversion: `dist` is the distance of the pointer from
the center (the source's `sqrt(dx²+dy²)`) and `ang` its `atan2 dy dx`
angle.  The transcendental conversion itself is kept abstract; the interval
tests on the polar coordinates are modelled exactly. -/
def contains_point (twoPi : α) (s : Segment α) (dist ang : α) : Bool :=
  if dist < s.inner_radius then false
  else if dist > s.outer_radius then false
  else
    let a := normAngle twoPi ang
    decide (s.start_angle ≤ a) && decide (a ≤ s.end_angle)

/-- The hover hit-test of `connect_motion` (src/sunburst.rs:186-194):
iterate the (indexed) segment list in reverse and return the index of the
first match. -/
def findSegment (segs : List (Segment α)) (twoPi dist ang : α) : Option Nat :=
  (segs.enum.reverse.find? fun p => contains_point twoPi p.2 dist ang).map Prod.fst

mutual
/-- `SunburstChart::draw_node` (src/sunburst.rs:285-396), restricted to its
segment-producing skeleton: the cairo painting, hover brightening and
selection-border effects change only pixel output, never the produced
segment list, and are omitted.  A zero-value node is skipped with its
subtree; the node's ring is `[inner + depth·t, inner + (depth+1)·t)` for
`t = (outer - inner)/6`, skipped when it exceeds the outer budget or is
degenerate; the node's own segment is appended before its children
(pre-order); children are laid out only when `depth < 5`. -/
def draw_node (node : TreeNode) (start_angle end_angle inner_radius outer_radius : α)
    (depth : Nat) : List (Segment α) :=
  match node with
  | .mk nm v cs =>
    if v = 0 then []
    else
      let ring_thickness := (outer_radius - inner_radius) / 6
      let current_inner := inner_radius + (depth : α) * ring_thickness
      let current_outer := current_inner + ring_thickness
      if current_outer > outer_radius ∨ current_outer ≤ current_inner then []
      else
        { node := .mk nm v cs, start_angle := start_angle, end_angle := end_angle,
          inner_radius := current_inner, outer_radius := current_outer, depth := depth } ::
        (if cs ≠ .nil ∧ depth < 5 then
          draw_children cs start_angle (end_angle - start_angle) v inner_radius outer_radius depth
        else [])
/-- The `for child in &node.children` loop of `draw_node`
(src/sunburst.rs:369-395): the running angle cursor starts at the parent's
`start_angle`; each child receives `angle_span * child.value / parent.value`
and the cursor advances to the child's end angle. -/
def draw_children (cs : TreeList) (current_angle angle_span : α) (parent_value : Nat)
    (inner_radius outer_radius : α) (depth : Nat) : List (Segment α) :=
  match cs with
  | .nil => []
  | .cons child rest =>
    let child_end_angle := current_angle + angle_span * ((child.value : α) / (parent_value : α))
    draw_node child current_angle child_end_angle inner_radius outer_radius (depth + 1) ++
    draw_children rest child_end_angle angle_span parent_value inner_radius outer_radius depth
end

/-- The angular interval each child is given by the `draw_node` loop: the
list pairs every child with its `(start_angle, end_angle)` in stored order,
mirroring the cursor arithmetic of src/sunburst.rs:370-394. -/
def childIntervals (cs : TreeList) (current_angle angle_span : α) (parent_value : Nat) :
    List (TreeNode × α × α) :=
  match cs with
  | .nil => []
  | .cons child rest =>
    let child_end_angle := current_angle + angle_span * ((child.value : α) / (parent_value : α))
    (child, current_angle, child_end_angle) ::
      childIntervals rest child_end_angle angle_span parent_value

end Geometry

/-- `SunburstChart::get_color`'s running 32-bit hash (src/sunburst.rs:
398-403): seed `depth * 100`, then `hash = hash.wrapping_mul(31)
.wrapping_add(byte)` over the UTF-8 bytes of the name. -/
def colorHash (name : String) (depth : Nat) : Nat :=
  (name.toUTF8.toList.map UInt8.toNat).foldl
    (fun hash byte => (hash * 31 + byte) % 2 ^ 32) (depth * 100 % 2 ^ 32)

/-- The `hue` of `get_color`: `(hash % 360) / 360`. -/
def hueOf (name : String) (depth : Nat) : ℚ :=
  ((colorHash name depth % 360 : Nat) : ℚ) / 360

/-- The `saturation` of `get_color`: `0.6 + ((hash / 360) % 20) / 100`. -/
def satOf (name : String) (depth : Nat) : ℚ :=
  6 / 10 + ((colorHash name depth / 360 % 20 : Nat) : ℚ) / 100

/-- The `value` of `get_color`: `0.7 + ((hash / 7200) % 20) / 100`. -/
def valOf (name : String) (depth : Nat) : ℚ :=
  7 / 10 + ((colorHash name depth / 7200 % 20 : Nat) : ℚ) / 100

/-- The HSV-to-RGB conversion of `get_color` (src/sunburst.rs:409-424).
The source's six-way `match i as i32 % 6` is written as an `if` chain; `i`
is the floor of `h * 6`, non-negative for every hue in `[0, 1)`, so Rust's
truncated `%` agrees with `Int.emod` here. -/
def hsvToRgb (h s v : ℚ) : ℚ × ℚ × ℚ :=
  let h6 := h * 6
  let i : Int := ⌊h6⌋
  let f : ℚ := h6 - (i : ℚ)
  let p := v * (1 - s)
  let q := v * (1 - s * f)
  let t := v * (1 - s * (1 - f))
  if i % 6 = 0 then (v, t, p)
  else if i % 6 = 1 then (q, v, p)
  else if i % 6 = 2 then (p, v, t)
  else if i % 6 = 3 then (p, q, v)
  else if i % 6 = 4 then (t, p, v)
  else (v, p, q)

/-- `SunburstChart::get_color` (src/sunburst.rs:398-425): a pure function
of the label and the depth. -/
def get_color (name : String) (depth : Nat) : ℚ × ℚ × ℚ :=
  hsvToRgb (hueOf name depth) (satOf name depth) (valOf name depth)

/-- The navigation state of one chart instance (the `Rc<RefCell<…>>` cells
of `SunburstChart` that the claims concern): the loaded tree, the zoom root
and the externally selected path.  The other cells (hover index, GTK store
and label handles, raw events) only drive rendering collaborators. -/
structure ChartState where
  data : Option TreeNode
  zoomRoot : Option TreeNode
  selectedPath : List String
deriving DecidableEq, Repr

/-- The freshly constructed chart (src/sunburst.rs:96-107): no data, no
zoom, empty selected path. -/
def initialChartState : ChartState :=
  { data := none, zoomRoot := none, selectedPath := [] }

/-- `SunburstChart::set_data` (src/sunburst.rs:427-452): store the tree and
clear the zoom.  (`selected_path` is not touched by `set_data`.) -/
def setData (d : TreeNode) (st : ChartState) : ChartState :=
  { st with data := some d, zoomRoot := none }

/-- The click handler `connect_released` (src/sunburst.rs:225-278): resolve
the hit by scanning the segment list in reverse; on a depth-0 hit clear the
zoom and the selection, on any other hit zoom into the segment's node and
clear the selection, and do nothing when no segment is hit.  (The banner
and the GTK tree/stats stores updated alongside are rendering
collaborators.) -/
def clickReleased {α : Type} [LinearOrderedField α] (segs : List (Segment α))
    (twoPi dist ang : α) (st : ChartState) : ChartState :=
  match segs.reverse.find? (fun seg => contains_point twoPi seg dist ang) with
  | none => st
  | some seg =>
    if seg.depth = 0 then { st with zoomRoot := none, selectedPath := [] }
    else { st with zoomRoot := some seg.node, selectedPath := [] }

/-- The banner's reset button (src/sunburst.rs:571-591): clear the zoom and
the selection. -/
def bannerResetClicked (st : ChartState) : ChartState :=
  { st with zoomRoot := none, selectedPath := [] }

/-- `SunburstChart::set_selected_path` (src/sunburst.rs:556-559): store the
externally reported path.  Neither consults nor clears the zoom. -/
def setSelectedPath (path : List String) (st : ChartState) : ChartState :=
  { st with selectedPath := path }

/-- The segment list the handlers consult: the draw function
(src/sunburst.rs:135-172) lays out from the zoom root when zoomed, else
from the data root, over the full `[0, 2π]` sweep, and stores the result.
`r` is the viewport's `max_radius`.  (Noncomputable only because comparing
exact reals is: the generic `draw_node` is executable at `ℚ`.) -/
noncomputable def currentSegments (st : ChartState) (r : ℝ) : List (Segment ℝ) :=
  match st.zoomRoot with
  | some z => draw_node z 0 (2 * Real.pi) 0 r 0
  | none =>
    match st.data with
    | some d => draw_node d 0 (2 * Real.pi) 0 r 0
    | none => []

/-- The states a chart instance can reach through its externally triggered
events: data loads, click releases (against the segments of the current
view at some viewport radius), banner resets and external selection
reports. -/
inductive ReachableChartState : ChartState → Prop where
  | init : ReachableChartState initialChartState
  | load (d : TreeNode) {st : ChartState} :
      ReachableChartState st → ReachableChartState (setData d st)
  | click (r dist ang : ℝ) {st : ChartState} :
      ReachableChartState st →
      ReachableChartState (clickReleased (currentSegments st r) (2 * Real.pi) dist ang st)
  | reset {st : ChartState} :
      ReachableChartState st → ReachableChartState (bannerResetClicked st)
  | select (path : List String) {st : ChartState} :
      ReachableChartState st → ReachableChartState (setSelectedPath path st)

/-- The nested span of the spec's concrete scenario: a `tls::key_exchange`
with group 23 from 150 to 200. -/
def ev8span : AuditEvent :=
  .mk "p1" "x" 150 200 [("name", .str "tls::key_exchange"), ("tls::group", .num 23)] .nil

/-- The spec's concrete scenario input: one `tls::handshake_client` event in
context "p1" from 100 to 500 with the nested key-exchange span. -/
def ev8 : AuditEvent :=
  .mk "p1" "x" 100 500 [("name", .str "tls::handshake_client")] (.cons ev8span .nil)

/-- The tree the spec's concrete scenario expects. -/
def expectedTree8 : TreeNode :=
  .mk "all" 1 (.cons
    (.mk "p1" 1 (.cons
      (.mk "tls::handshake_client" 1 (.cons
        (.mk "tls::key_exchange [secp256r1]" 1 .nil) .nil)) .nil)) .nil)

/-- An event whose `events` map binds "name" to a non-string value. -/
def eventNoName : AuditEvent := .mk "c" "o" 1 2 [("name", .num 7)] .nil

/-- A small demonstration tree: root "all" with one context child "p1". -/
def tDemo : TreeNode := .mk "all" 1 (.cons (.mk "p1" 1 .nil) .nil)

/-- The "p1" context node of `tDemo`. -/
def p1Node : TreeNode := .mk "p1" 1 .nil

/-- A chart state with an active zoom and a non-empty external selection. -/
def badState : ChartState :=
  { data := some tDemo, zoomRoot := some p1Node, selectedPath := ["x"] }

/-- A concrete rational segment for hit-test witnesses. -/
def segW : Segment ℚ :=
  { node := .mk "n" 1 .nil, start_angle := 0, end_angle := 3,
    inner_radius := 1, outer_radius := 2, depth := 0 }

/-- A concrete depth-1 rational segment owned by `p1Node`. -/
def segQ1 : Segment ℚ :=
  { node := p1Node, start_angle := 0, end_angle := 3,
    inner_radius := 1, outer_radius := 2, depth := 1 }

/-- A state with data, an active zoom and a selection, for click witnesses. -/
def stW : ChartState :=
  { data := some tDemo, zoomRoot := some p1Node, selectedPath := ["x"] }

/-- A state with data, no zoom and a selection, for zoom-change witnesses. -/
def stW2 : ChartState :=
  { data := some tDemo, zoomRoot := none, selectedPath := ["y"] }

/-- A concrete children list of total weight 5 for the angle witnesses. -/
def csW : TreeList := .cons (.mk "b" 2 .nil) (.cons (.mk "c" 3 .nil) .nil)

theorem treeList_ind {Q : TreeList → Prop} (cs : TreeList) (nil : Q .nil)
    (cons : ∀ c rest, Q rest → Q (.cons c rest)) : Q cs :=
  @TreeList.rec (fun _ => True) Q (fun _ _ _ _ => trivial) nil
    (fun c rest _ ih => cons c rest ih) cs

theorem tree_mutual_ind {P : TreeNode → Prop} {Q : TreeList → Prop}
    (hmk : ∀ n v cs, Q cs → P (.mk n v cs)) (hnil : Q .nil)
    (hcons : ∀ c rest, P c → Q rest → Q (.cons c rest)) :
    (∀ t, P t) ∧ (∀ cs, Q cs) :=
  ⟨@TreeNode.rec P Q hmk hnil hcons, @TreeList.rec P Q hmk hnil hcons⟩

theorem event_mutual_ind {P : AuditEvent → Prop} {Q : EventList → Prop}
    (hmk : ∀ c o s e ev sp, Q sp → P (.mk c o s e ev sp)) (hnil : Q .nil)
    (hcons : ∀ e rest, P e → Q rest → Q (.cons e rest)) :
    (∀ e, P e) ∧ (∀ sp, Q sp) :=
  ⟨@AuditEvent.rec P Q hmk hnil hcons, @EventList.rec P Q hmk hnil hcons⟩

lemma update_values_weightOk : ∀ t : TreeNode, weightOk (update_values t) = true := by
  refine (tree_mutual_ind (Q := fun cs => weightOkList (update_values_list cs) = true)
    ?_ ?_ ?_).1
  · intro n v cs ih
    cases cs with
    | nil => simp [update_values, weightOk, weightOkList]
    | cons c rest =>
      simp only [update_values, weightOk, update_values_list] at ih ⊢
      simp [ih]
  · simp [update_values_list, weightOkList]
  · intro c rest ihc ihrest
    simp only [update_values_list, weightOkList] at ihrest ⊢
    simp [ihc, ihrest]

/-- C1: in the tree returned by `from_events`, every node with a non-empty
children list — context nodes and the synthetic root included — has `value`
equal to the sum of its children's values, recursively (`weightOk`). -/
theorem weight_conservation (events : List AuditEvent) :
    weightOk (from_events events) = true := by
  simp only [from_events]
  exact update_values_weightOk _

lemma update_range_eq : ∀ (e : AuditEvent) (mn mx : Nat),
    update_range e mn mx = (((allNodes e).map AuditEvent.start).foldl min mn,
                            ((allNodes e).map AuditEvent.stop).foldl max mx) := by
  refine (event_mutual_ind (Q := fun sp => ∀ mn mx,
      update_range_spans sp mn mx = (((allNodesSpans sp).map AuditEvent.start).foldl min mn,
        ((allNodesSpans sp).map AuditEvent.stop).foldl max mx)) ?_ ?_ ?_).1
  · intro c o s en ev sp ih mn mx
    simp only [update_range, allNodes, List.map_cons, List.foldl_cons, AuditEvent.start,
      AuditEvent.stop]
    exact ih (min mn s) (max mx en)
  · intro mn mx
    simp [update_range_spans, allNodesSpans]
  · intro e rest ihe ihrest mn mx
    simp only [update_range_spans, allNodesSpans, List.map_append, List.foldl_append]
    rw [ihe, ihrest]

lemma update_range_top_eq : ∀ (events : List AuditEvent) (mn mx : Nat),
    update_range_top events mn mx =
      (((events.flatMap allNodes).map AuditEvent.start).foldl min mn,
       ((events.flatMap allNodes).map AuditEvent.stop).foldl max mx) := by
  intro events
  induction events with
  | nil => simp [update_range_top]
  | cons e rest ih =>
    intro mn mx
    simp only [update_range_top, List.flatMap_cons, List.map_append, List.foldl_append]
    rw [update_range_eq, ih]

/-- C2 (counterexample): a non-empty input on which `get_time_range`
returns `None` — a single event with `start = end = 0` leaves the `max_end`
accumulator at its `u64::MIN` initial value, so the final guard fires. -/
theorem time_range_nonempty_none :
    get_time_range [AuditEvent.mk "c" "o" 0 0 [] .nil] = none ∧
      ([AuditEvent.mk "c" "o" 0 0 [] .nil] : List AuditEvent) ≠ [] := by
  constructor
  · decide
  · decide

/-- C2 (amended): `get_time_range` returns `None` exactly when the input is
empty, or the accumulated minimum start (over every event and every nested
span, seeded with `u64::MAX`) still equals `u64::MAX`, or the accumulated
maximum end (seeded with 0) still equals 0; otherwise it returns
`Some((min_start, max_end))` over all events and all recursively nested
spans. -/
theorem time_range_characterization (events : List AuditEvent) :
    get_time_range events =
      if events.isEmpty ∨ minStartAll events = u64Max ∨ maxEndAll events = 0 then none
      else some (minStartAll events, maxEndAll events) := by
  simp only [get_time_range, minStartAll, maxEndAll, update_range_top_eq]
  rcases events with _ | ⟨e, rest⟩
  · simp
  · simp only [List.isEmpty_cons, Bool.false_eq_true, false_or, if_false]

/-- C8: the spec's concrete scenario — one `tls::handshake_client` event in
context "p1" from 100 to 500 with a nested `tls::key_exchange` span (group
23, decoded as secp256r1) — builds exactly the expected four-level tree
with all values 1, and `get_time_range` returns `(100, 500)`. -/
theorem concrete_scenario_tree_and_range :
    from_events [ev8] = expectedTree8 ∧ get_time_range [ev8] = some (100, 500) := by
  constructor
  · decide
  · decide

/-- C9: the color function is pure — two calls with the same label and
depth are identical — it is exactly the HSV-to-RGB conversion of the
hash-derived hue, saturation and value, and for every label and depth the
hue lies in `[0, 1)`, the saturation in `[0.6, 0.8)` and the value in
`[0.7, 0.9)`. -/
theorem get_color_deterministic_and_banded (name : String) (depth : Nat) :
    get_color name depth = get_color name depth ∧
    get_color name depth = hsvToRgb (hueOf name depth) (satOf name depth) (valOf name depth) ∧
    (0 ≤ hueOf name depth ∧ hueOf name depth < 1) ∧
    (6 / 10 ≤ satOf name depth ∧ satOf name depth < 8 / 10) ∧
    (7 / 10 ≤ valOf name depth ∧ valOf name depth < 9 / 10) := by
  refine ⟨rfl, rfl, ⟨?_, ?_⟩, ⟨?_, ?_⟩, ⟨?_, ?_⟩⟩ <;>
    simp only [hueOf, satOf, valOf]
  · positivity
  · have h : ((colorHash name depth % 360 : Nat) : ℚ) < 360 := by
      exact_mod_cast Nat.mod_lt _ (by norm_num)
    linarith
  · have h : (0 : ℚ) ≤ ((colorHash name depth / 360 % 20 : Nat) : ℚ) := Nat.cast_nonneg _
    linarith
  · have h : ((colorHash name depth / 360 % 20 : Nat) : ℚ) < 20 := by
      exact_mod_cast Nat.mod_lt _ (by norm_num)
    linarith
  · have h : (0 : ℚ) ≤ ((colorHash name depth / 7200 % 20 : Nat) : ℚ) := Nat.cast_nonneg _
    linarith
  · have h : ((colorHash name depth / 7200 % 20 : Nat) : ℚ) < 20 := by
      exact_mod_cast Nat.mod_lt _ (by norm_num)
    linarith

/-- C10: an event whose `events` map has no "name" key, or whose "name"
value is not a JSON string, materializes (totally) to a node labelled
exactly "unknown", with no bracketed attribute suffix. -/
theorem unknown_label (e : AuditEvent)
    (h : lookupKey "name" e.events = none ∨
         ∃ v, lookupKey "name" e.events = some v ∧ v.as_str = none) :
    (build_event_tree e).name = "unknown" := by
  obtain ⟨c, o, s, en, ev, sp⟩ := e
  have hname : AuditEvent.name (.mk c o s en ev sp) = "unknown" := by
    simp only [AuditEvent.name, AuditEvent.events] at h ⊢
    rcases h with h | ⟨v, hv, hvs⟩
    · rw [h]
    · rw [hv]; simp [hvs]
  have h1 : strStartsWith "unknown" "tls::handshake_" = false := by decide
  have h2 : ¬("unknown" = "tls::sign" ∨ "unknown" = "tls::verify") := by decide
  have h3 : "unknown" ≠ "tls::key_exchange" := by decide
  have h4 : strStartsWith "unknown" "pk::" = false := by decide
  simp only [build_event_tree, TreeNode.name, AuditEvent.format_details, hname]
  simp [h1, h2, h3, h4]

/-- C10 (witness): `unknown_label` applied to a concrete event binding
"name" to the number 7. -/
theorem unknown_label_witness :
    (lookupKey "name" eventNoName.events = none ∨
      ∃ v, lookupKey "name" eventNoName.events = some v ∧ v.as_str = none) ∧
    (build_event_tree eventNoName).name = "unknown" :=
  ⟨Or.inr ⟨.num 7, by decide, by decide⟩,
   unknown_label eventNoName (Or.inr ⟨.num 7, by decide, by decide⟩)⟩

section HitTest

variable {α : Type} [LinearOrderedField α]

lemma contains_point_iff (twoPi dist ang : α) (s : Segment α) :
    contains_point twoPi s dist ang = true ↔
      (s.inner_radius ≤ dist ∧ dist ≤ s.outer_radius) ∧
      (s.start_angle ≤ normAngle twoPi ang ∧ normAngle twoPi ang ≤ s.end_angle) := by
  simp only [contains_point]
  split_ifs with h1 h2
  · simp [not_le.mpr h1]
  · simp [not_le.mpr h2]
  · simp [not_lt.mp h1, not_lt.mp h2, and_assoc]

lemma find?_reverse_concat {β : Type} (l : List β) (x : β) (p : β → Bool) :
    ((l ++ [x]).reverse).find? p = if p x then some x else l.reverse.find? p := by
  rw [List.reverse_append]
  simp only [List.reverse_singleton, List.singleton_append, List.find?_cons]
  cases hp : p x <;> simp [hp]

lemma enum_concat {β : Type} (l : List β) (x : β) :
    (l ++ [x]).enum = l.enum ++ [(l.length, x)] := by
  rw [List.enum_append]
  simp [List.enumFrom]

lemma findSegment_resolves_latest (segs : List (Segment α)) (twoPi dist ang : α) :
    (∀ i, findSegment segs twoPi dist ang = some i →
        ∃ s, segs[i]? = some s ∧ contains_point twoPi s dist ang = true ∧
          ∀ j t, i < j → segs[j]? = some t → contains_point twoPi t dist ang = false) ∧
    (findSegment segs twoPi dist ang = none ↔
        ∀ s ∈ segs, contains_point twoPi s dist ang = false) := by
  induction segs using List.reverseRecOn with
  | nil => simp [findSegment]
  | append_singleton l x ih =>
    have hstep : findSegment (l ++ [x]) twoPi dist ang =
        if contains_point twoPi x dist ang then some l.length
        else findSegment l twoPi dist ang := by
      simp only [findSegment, enum_concat, find?_reverse_concat]
      cases hx : contains_point twoPi x dist ang <;> simp [hx]
    by_cases hx : contains_point twoPi x dist ang = true
    · rw [hstep, if_pos hx]
      constructor
      · rintro i hi
        injection hi with hi
        subst hi
        refine ⟨x, ?_, hx, ?_⟩
        · simp
        · intro j t hj ht
          exfalso
          have : j < l.length + 1 := by
            by_contra hge
            rw [List.getElem?_eq_none (by simpa [Nat.not_lt] using hge)] at ht
            exact Option.noConfusion ht
          omega
      · constructor
        · intro h; exact Option.noConfusion h
        · intro h
          have := h x (by simp)
          rw [hx] at this
          exact Bool.noConfusion this
    · rw [hstep, if_neg hx]
      rw [Bool.not_eq_true] at hx
      constructor
      · rintro i hi
        obtain ⟨s, hs, hcs, hrest⟩ := ih.1 i hi
        have hilt : i < l.length := by
          by_contra hge
          rw [List.getElem?_eq_none (by omega)] at hs
          exact Option.noConfusion hs
        refine ⟨s, ?_, hcs, ?_⟩
        · rw [List.getElem?_append, if_pos hilt]; exact hs
        · intro j t hj ht
          by_cases hjl : j < l.length
          · rw [List.getElem?_append, if_pos hjl] at ht
            exact hrest j t hj ht
          · by_cases hjeq : j = l.length
            · subst hjeq
              rw [List.getElem?_concat_length] at ht
              injection ht with ht
              rw [← ht]; exact hx
            · exfalso
              have hge : (l ++ [x]).length ≤ j := by
                simp only [List.length_append, List.length_singleton]
                omega
              rw [List.getElem?_eq_none hge] at ht
              exact Option.noConfusion ht
      · rw [ih.2]
        constructor
        · intro h s hs
          rcases List.mem_append.mp hs with h1 | h2
          · exact h s h1
          · rw [List.mem_singleton.mp h2]; exact hx
        · intro h s hs
          exact h s (List.mem_append.mpr (Or.inl hs))

end HitTest

/-- C5: a point (given in polar form: distance from the center and `atan2`
angle) hits a segment exactly when its distance lies in
`[inner_radius, outer_radius]` and its normalized angle lies in
`[start_angle, end_angle]`; and the hover hit-test — reverse iteration over
the indexed segment list, first match wins — resolves to the hit segment
latest in the pre-order list: every later segment misses the point, and the
test comes back empty exactly when every segment misses. -/
theorem hit_test_characterization {α : Type} [LinearOrderedField α]
    (twoPi dist ang : α) (s : Segment α) (segs : List (Segment α)) :
    (contains_point twoPi s dist ang = true ↔
      (s.inner_radius ≤ dist ∧ dist ≤ s.outer_radius) ∧
      (s.start_angle ≤ normAngle twoPi ang ∧ normAngle twoPi ang ≤ s.end_angle)) ∧
    (∀ i, findSegment segs twoPi dist ang = some i →
      ∃ sg, segs[i]? = some sg ∧ contains_point twoPi sg dist ang = true ∧
        ∀ j t, i < j → segs[j]? = some t → contains_point twoPi t dist ang = false) ∧
    (findSegment segs twoPi dist ang = none ↔
      ∀ sg ∈ segs, contains_point twoPi sg dist ang = false) :=
  ⟨contains_point_iff twoPi dist ang s,
   (findSegment_resolves_latest segs twoPi dist ang).1,
   (findSegment_resolves_latest segs twoPi dist ang).2⟩

/-- C5 (witness): the characterization applied at a concrete rational
segment and pointer position (distance 3/2, angle −4 normalizing to 2). -/
theorem hit_test_witness : contains_point (6 : ℚ) segW (3 / 2) (-4) = true :=
  (hit_test_characterization (6 : ℚ) (3 / 2) (-4) segW []).1.mpr
    (by norm_num [segW, normAngle])

/-- C6: on click release, resolving the hit by the reverse scan of the
segment list: a depth-0 hit clears both `zoom_root` and `selected_path`, a
hit at any other depth sets `zoom_root` to the segment's node and clears
`selected_path`, and a click that hits nothing leaves the state
unchanged. -/
theorem click_release_transitions {α : Type} [LinearOrderedField α]
    (segs : List (Segment α)) (twoPi dist ang : α) (st : ChartState) :
    (segs.reverse.find? (fun seg => contains_point twoPi seg dist ang) = none →
      clickReleased segs twoPi dist ang st = st) ∧
    (∀ seg, segs.reverse.find? (fun s => contains_point twoPi s dist ang) = some seg →
      seg.depth = 0 →
      clickReleased segs twoPi dist ang st = { st with zoomRoot := none, selectedPath := [] }) ∧
    (∀ seg, segs.reverse.find? (fun s => contains_point twoPi s dist ang) = some seg →
      seg.depth ≠ 0 →
      clickReleased segs twoPi dist ang st =
        { st with zoomRoot := some seg.node, selectedPath := [] }) := by
  refine ⟨?_, ?_, ?_⟩
  · intro h
    simp [clickReleased, h]
  · intro seg h hd
    simp [clickReleased, h, hd]
  · intro seg h hd
    simp [clickReleased, h, hd]

/-- C6 (witness): clicking the depth-1 segment `segQ1` from a zoomed,
selected state zooms into its node and clears the selection. -/
theorem click_release_witness :
    clickReleased [segQ1] (6 : ℚ) (3 / 2) (-4) stW =
      { stW with zoomRoot := some segQ1.node, selectedPath := [] } := by
  have hc : contains_point (6 : ℚ) segQ1 (3 / 2) (-4) = true := by
    simp only [segQ1, contains_point, normAngle]
    norm_num
  have hf : ([segQ1] : List (Segment ℚ)).reverse.find?
      (fun s => contains_point 6 s (3 / 2) (-4)) = some segQ1 := by
    simp [List.find?, hc]
  exact (click_release_transitions [segQ1] (6 : ℚ) (3 / 2) (-4) stW).2.2 segQ1 hf
    (by simp [segQ1])

section AnglePartition

variable {α : Type} [LinearOrderedField α]

lemma childIntervals_sum (cs : TreeList) (a span : α) (V : Nat) :
    ((childIntervals cs a span V).map fun p => p.2.2 - p.2.1).sum =
      span * ((sumValues cs : α) / (V : α)) := by
  induction cs using treeList_ind generalizing a with
  | nil => simp [childIntervals, sumValues]
  | cons c rest ih =>
    simp only [childIntervals, List.map_cons, List.sum_cons, sumValues, ih]
    push_cast
    ring

lemma childIntervals_chain (cs : TreeList) (a span : α) (V : Nat) :
    List.Chain' (fun p q : TreeNode × α × α => p.2.2 = q.2.1)
      (childIntervals cs a span V) := by
  induction cs using treeList_ind generalizing a with
  | nil => simp [childIntervals]
  | cons c rest ih =>
    cases rest with
    | nil => simp [childIntervals]
    | cons c2 rest2 =>
      refine List.Chain'.cons ?_ (ih _)
      rfl

lemma childIntervals_spans (cs : TreeList) (a span : α) (V : Nat) :
    ∀ p ∈ childIntervals cs a span V,
      p.2.2 - p.2.1 = span * ((p.1.value : α) / (V : α)) := by
  induction cs using treeList_ind generalizing a with
  | nil => simp [childIntervals]
  | cons c rest ih =>
    intro p hp
    simp only [childIntervals, List.mem_cons] at hp
    rcases hp with rfl | hp
    · simp
    · exact ih _ p hp

lemma draw_children_eq_bind (cs : TreeList) (a span : α) (V : Nat)
    (i o : α) (d : Nat) :
    draw_children cs a span V i o d =
      (childIntervals cs a span V).flatMap fun p =>
        draw_node p.1 p.2.1 p.2.2 i o (d + 1) := by
  induction cs using treeList_ind generalizing a with
  | nil => simp [draw_children, childIntervals]
  | cons c rest ih =>
    simp only [draw_children, childIntervals, List.flatMap_cons, ih]

/-- C4: for a laid-out node with children and positive value `V` satisfying
the weight invariant `sumValues cs = V`, the `draw_node` child loop hands
the children the intervals recorded by `childIntervals`: consecutive
intervals in stored order (each child's start is the previous sibling's
end), starting at the parent's start angle, each child of value `v`
receiving span `angle_span · v / V`, and the spans summing exactly — hence
within any tolerance — to the parent's span, at every depth and fan-out. -/
theorem children_partition_parent_angle (cs : TreeList) (a span : α) (V : Nat)
    (i o : α) (d : Nat) (hV : 0 < V) (hsum : sumValues cs = V) :
    draw_children cs a span V i o d =
      ((childIntervals cs a span V).flatMap fun p =>
        draw_node p.1 p.2.1 p.2.2 i o (d + 1)) ∧
    (∀ p ∈ childIntervals cs a span V,
      p.2.2 - p.2.1 = span * ((p.1.value : α) / (V : α))) ∧
    List.Chain' (fun p q : TreeNode × α × α => p.2.2 = q.2.1)
      (childIntervals cs a span V) ∧
    (∀ p ∈ (childIntervals cs a span V).head?, p.2.1 = a) ∧
    ((childIntervals cs a span V).map fun p => p.2.2 - p.2.1).sum = span := by
  refine ⟨draw_children_eq_bind cs a span V i o d, childIntervals_spans cs a span V,
    childIntervals_chain cs a span V, ?_, ?_⟩
  · cases cs with
    | nil => simp [childIntervals]
    | cons c rest => simp [childIntervals]
  · rw [childIntervals_sum, hsum]
    have hV0 : ((V : α)) ≠ 0 := by
      exact_mod_cast Nat.pos_iff_ne_zero.mp hV
    field_simp

/-- C4 (witness): the partition theorem applied at a concrete children list
of weights 2 and 3 under a parent of value 5 with span 10: the child spans
sum to 10. -/
theorem children_partition_witness :
    0 < 5 ∧ sumValues csW = 5 ∧
      ((childIntervals csW (0 : ℚ) 10 5).map fun p => p.2.2 - p.2.1).sum = 10 :=
  ⟨by decide, by decide,
   (children_partition_parent_angle csW (0 : ℚ) 10 5 0 100 0 (by decide) (by decide)).2.2.2.2⟩

end AnglePartition

section LayoutLemmas

variable {α : Type} [LinearOrderedField α]

lemma draw_node_depth_ge :
    (∀ (node : TreeNode) (a b inn oR : α) (d : Nat),
      ∀ s ∈ draw_node node a b inn oR d, d ≤ s.depth) ∧
    (∀ (cs : TreeList) (cur span : α) (V : Nat) (inn oR : α) (d : Nat),
      ∀ s ∈ draw_children cs cur span V inn oR d, d + 1 ≤ s.depth) := by
  have hmk : ∀ (n : String) (v : Nat) (cs : TreeList),
      (∀ (cur span : α) (V : Nat) (inn oR : α) (d : Nat),
        ∀ s ∈ draw_children cs cur span V inn oR d, d + 1 ≤ s.depth) →
      ∀ (a b inn oR : α) (d : Nat),
        ∀ s ∈ draw_node (TreeNode.mk n v cs) a b inn oR d, d ≤ s.depth := by
    intro n v cs ih a b inn oR d s hs
    simp only [draw_node] at hs
    split_ifs at hs with h0 h1 h2
    · simp at hs
    · simp at hs
    · rcases List.mem_cons.mp hs with rfl | hs'
      · exact le_refl _
      · exact le_of_lt (Nat.lt_of_lt_of_le (Nat.lt_succ_self d) (ih _ _ _ _ _ _ s hs'))
    · rcases List.mem_cons.mp hs with rfl | hs'
      · exact le_refl _
      · simp at hs'
  have hnil : ∀ (cur span : α) (V : Nat) (inn oR : α) (d : Nat),
      ∀ s ∈ draw_children .nil cur span V inn oR d, d + 1 ≤ s.depth := by
    intro cur span V inn oR d s hs
    simp [draw_children] at hs
  have hcons : ∀ (c : TreeNode) (rest : TreeList),
      (∀ (a b inn oR : α) (d : Nat), ∀ s ∈ draw_node c a b inn oR d, d ≤ s.depth) →
      (∀ (cur span : α) (V : Nat) (inn oR : α) (d : Nat),
        ∀ s ∈ draw_children rest cur span V inn oR d, d + 1 ≤ s.depth) →
      ∀ (cur span : α) (V : Nat) (inn oR : α) (d : Nat),
        ∀ s ∈ draw_children (.cons c rest) cur span V inn oR d, d + 1 ≤ s.depth := by
    intro c rest ihc ihrest cur span V inn oR d s hs
    simp only [draw_children] at hs
    rcases List.mem_append.mp hs with h | h
    · exact ihc _ _ _ _ _ s h
    · exact ihrest _ _ _ _ _ _ s h
  exact tree_mutual_ind hmk hnil hcons

lemma draw_node_depth_eq :
    (∀ (node : TreeNode) (a b inn oR : α) (d : Nat),
      ∀ s ∈ draw_node node a b inn oR d, s.depth = d → s.node = node ∧ 0 < node.value) ∧
    (∀ (cs : TreeList) (cur span : α) (V : Nat) (inn oR : α) (d : Nat),
      ∀ s ∈ draw_children cs cur span V inn oR d, s.depth = d + 1 →
        s.node ∈ TreeList.toList cs ∧ 0 < s.node.value) := by
  have hmk : ∀ (n : String) (v : Nat) (cs : TreeList),
      (∀ (cur span : α) (V : Nat) (inn oR : α) (d : Nat),
        ∀ s ∈ draw_children cs cur span V inn oR d, s.depth = d + 1 →
          s.node ∈ TreeList.toList cs ∧ 0 < s.node.value) →
      ∀ (a b inn oR : α) (d : Nat),
        ∀ s ∈ draw_node (TreeNode.mk n v cs) a b inn oR d, s.depth = d →
          s.node = TreeNode.mk n v cs ∧ 0 < (TreeNode.mk n v cs).value := by
    intro n v cs _ a b inn oR d s hs hd
    simp only [draw_node] at hs
    split_ifs at hs with h0 h1 h2
    · simp at hs
    · simp at hs
    · rcases List.mem_cons.mp hs with rfl | hs'
      · exact ⟨rfl, by simp [TreeNode.value]; omega⟩
      · exfalso
        have := draw_node_depth_ge.2 cs a (b - a) v inn oR d s hs'
        omega
    · rcases List.mem_cons.mp hs with rfl | hs'
      · exact ⟨rfl, by simp [TreeNode.value]; omega⟩
      · simp at hs'
  have hnil : ∀ (cur span : α) (V : Nat) (inn oR : α) (d : Nat),
      ∀ s ∈ draw_children .nil cur span V inn oR d, s.depth = d + 1 →
        s.node ∈ TreeList.toList .nil ∧ 0 < s.node.value := by
    intro cur span V inn oR d s hs
    simp [draw_children] at hs
  have hcons : ∀ (c : TreeNode) (rest : TreeList),
      (∀ (a b inn oR : α) (d : Nat),
        ∀ s ∈ draw_node c a b inn oR d, s.depth = d → s.node = c ∧ 0 < c.value) →
      (∀ (cur span : α) (V : Nat) (inn oR : α) (d : Nat),
        ∀ s ∈ draw_children rest cur span V inn oR d, s.depth = d + 1 →
          s.node ∈ TreeList.toList rest ∧ 0 < s.node.value) →
      ∀ (cur span : α) (V : Nat) (inn oR : α) (d : Nat),
        ∀ s ∈ draw_children (.cons c rest) cur span V inn oR d, s.depth = d + 1 →
          s.node ∈ TreeList.toList (.cons c rest) ∧ 0 < s.node.value := by
    intro c rest ihc ihrest cur span V inn oR d s hs hd
    simp only [draw_children] at hs
    rcases List.mem_append.mp hs with h | h
    · obtain ⟨heq, hv⟩ := ihc _ _ _ _ _ s h hd
      exact ⟨by rw [heq]; simp [TreeList.toList], by rw [heq]; exact hv⟩
    · obtain ⟨hmem, hv⟩ := ihrest _ _ _ _ _ _ s h hd
      exact ⟨by simp [TreeList.toList]; right; simpa using hmem, hv⟩
  exact tree_mutual_ind hmk hnil hcons

lemma draw_children_complete (cs : TreeList) (cur span : α) (V : Nat)
    (inn oR : α) (d : Nat)
    (hfit : inn + ((d + 1 : Nat) : α) * ((oR - inn) / 6) + (oR - inn) / 6 ≤ oR)
    (ht : 0 < (oR - inn) / 6) :
    ∀ c ∈ TreeList.toList cs, 0 < c.value →
      ∃ s ∈ draw_children cs cur span V inn oR d, s.depth = d + 1 ∧ s.node = c := by
  induction cs using treeList_ind generalizing cur with
  | nil => simp [TreeList.toList]
  | cons c2 rest ih =>
    intro c hc hv
    simp only [TreeList.toList, List.mem_cons] at hc
    rcases hc with rfl | hc
    · obtain ⟨nm, v, cs2⟩ := c
      have hv0 : v ≠ 0 := by simpa [TreeNode.value] using Nat.pos_iff_ne_zero.mp hv
      refine ⟨{ node := TreeNode.mk nm v cs2,
                start_angle := cur,
                end_angle := cur + span * (((TreeNode.mk nm v cs2).value : α) / (V : α)),
                inner_radius := inn + ((d + 1 : Nat) : α) * ((oR - inn) / 6),
                outer_radius := inn + ((d + 1 : Nat) : α) * ((oR - inn) / 6) + (oR - inn) / 6,
                depth := d + 1 }, ?_, rfl, rfl⟩
      simp only [draw_children]
      apply List.mem_append.mpr
      left
      simp only [draw_node]
      rw [if_neg hv0, if_neg (by push_neg; constructor <;> linarith)]
      exact List.mem_cons_self _ _
    · obtain ⟨s, hs, hsd, hsn⟩ := ih _ c hc hv
      refine ⟨s, ?_, hsd, hsn⟩
      simp only [draw_children]
      exact List.mem_append.mpr (Or.inr hs)

lemma draw_node_head (root : TreeNode) (twoPi r : α)
    (hv : 0 < root.value) (hr : 0 < r) :
    (draw_node root 0 twoPi 0 r 0).head? =
      some { node := root, start_angle := 0, end_angle := twoPi,
             inner_radius := 0, outer_radius := r / 6, depth := 0 } := by
  obtain ⟨nm, v, cs⟩ := root
  have hv0 : v ≠ 0 := by
    simpa [TreeNode.value] using Nat.pos_iff_ne_zero.mp hv
  simp only [draw_node]
  rw [if_neg hv0, if_neg (by push_neg; norm_num; constructor <;> linarith)]
  simp only [List.head?_cons, Option.some.injEq, Segment.mk.injEq]
  norm_num

end LayoutLemmas

/-- C3 (counterexample): in the genuine layout pass over the full `2·π`
sweep from the display root `tDemo` at radius 330, the very first emitted
segment is the display root itself at depth 0 — although the root is not
among its own children — contradicting the claim that the display root is
never emitted and that depth-0 segments are exactly its children. -/
theorem root_segment_emitted_at_depth_zero :
    (draw_node tDemo 0 (2 * Real.pi) 0 330 0).head? =
      some { node := tDemo, start_angle := 0, end_angle := 2 * Real.pi,
             inner_radius := 0, outer_radius := 330 / 6, depth := 0 } ∧
    tDemo ∉ TreeList.toList tDemo.children := by
  constructor
  · exact draw_node_head tDemo (2 * Real.pi) 330 (by decide) (by norm_num)
  · decide

/-- C3 (amended): in every layout pass (full `2·π` sweep, positive root
value and radius), the display root itself is emitted as the first segment
at depth 0, covering the full angular interval and the innermost ring disc
`[0, r/6]`; it is the only depth-0 segment; and ring 1 — not ring 0 — holds
exactly the display root's children with positive value. -/
theorem layout_emits_display_root_first (root : TreeNode) (r : ℝ)
    (hv : 0 < root.value) (hr : 0 < r) :
    (draw_node root 0 (2 * Real.pi) 0 r 0).head? =
      some { node := root, start_angle := 0, end_angle := 2 * Real.pi,
             inner_radius := 0, outer_radius := r / 6, depth := 0 } ∧
    (∀ s ∈ draw_node root 0 (2 * Real.pi) 0 r 0, s.depth = 0 → s.node = root) ∧
    (∀ s ∈ draw_node root 0 (2 * Real.pi) 0 r 0, s.depth = 1 →
      s.node ∈ TreeList.toList root.children ∧ 0 < s.node.value) ∧
    (∀ c ∈ TreeList.toList root.children, 0 < c.value →
      ∃ s ∈ draw_node root 0 (2 * Real.pi) 0 r 0, s.depth = 1 ∧ s.node = c) := by
  refine ⟨draw_node_head root (2 * Real.pi) r hv hr, ?_, ?_, ?_⟩
  · intro s hs hd
    exact (draw_node_depth_eq.1 root 0 (2 * Real.pi) 0 r 0 s hs hd).1
  · obtain ⟨nm, v, cs⟩ := root
    intro s hs hd
    have hv0 : v ≠ 0 := by
      simpa [TreeNode.value] using Nat.pos_iff_ne_zero.mp hv
    simp only [draw_node] at hs
    split_ifs at hs with h0 h1 h2
    · simp at hs
    · simp at hs
    · rcases List.mem_cons.mp hs with rfl | hs'
      · simp at hd
      · exact draw_node_depth_eq.2 cs 0 (2 * Real.pi - 0) v 0 r 0 s hs' hd
    · rcases List.mem_cons.mp hs with rfl | hs'
      · simp at hd
      · simp at hs'
  · obtain ⟨nm, v, cs⟩ := root
    intro c hc hcv
    have hv0 : v ≠ 0 := by
      simpa [TreeNode.value] using Nat.pos_iff_ne_zero.mp hv
    have hcs : cs ≠ TreeList.nil := by
      intro h
      rw [h] at hc
      simp [TreeList.toList] at hc
    obtain ⟨s, hs, hsd, hsn⟩ :=
      draw_children_complete cs 0 (2 * Real.pi - 0) v 0 r 0
        (by push_cast; linarith) (by linarith) c hc hcv
    refine ⟨s, ?_, hsd, hsn⟩
    simp only [draw_node]
    rw [if_neg hv0, if_neg (by push_neg; norm_num; constructor <;> linarith)]
    refine List.mem_cons_of_mem _ ?_
    rw [if_pos ⟨hcs, by norm_num⟩]
    exact hs

/-- C3 (witness): the amended layout theorem applied to the concrete tree
`tDemo` at radius 330. -/
theorem layout_emits_display_root_first_witness :
    0 < tDemo.value ∧ (0 : ℝ) < 330 ∧
      (draw_node tDemo 0 (2 * Real.pi) 0 330 0).head? =
        some { node := tDemo, start_angle := 0, end_angle := 2 * Real.pi,
               inner_radius := 0, outer_radius := 330 / 6, depth := 0 } :=
  ⟨by decide, by norm_num,
   (layout_emits_display_root_first tDemo 330 (by decide) (by norm_num)).1⟩

lemma tDemo_layout :
    draw_node tDemo 0 (2 * Real.pi) 0 330 0 =
      [{ node := tDemo, start_angle := 0, end_angle := 2 * Real.pi,
         inner_radius := 0, outer_radius := 55, depth := 0 },
       { node := p1Node, start_angle := 0, end_angle := 2 * Real.pi,
         inner_radius := 55, outer_radius := 110, depth := 1 }] := by
  show draw_node (TreeNode.mk "all" 1 (.cons (.mk "p1" 1 .nil) .nil)) 0 (2 * Real.pi) 0 330 0 = _
  rw [draw_node]
  norm_num
  rw [draw_children]
  norm_num
  rw [draw_node]
  norm_num
  refine ⟨by simp [tDemo], ?_⟩
  rw [if_neg (by decide), draw_children]
  simp [p1Node, TreeNode.value]

lemma click_on_p1 :
    clickReleased (currentSegments (setData tDemo initialChartState) 330)
        (2 * Real.pi) 80 1 (setData tDemo initialChartState) =
      { data := some tDemo, zoomRoot := some p1Node, selectedPath := [] } := by
  have hsegs : currentSegments (setData tDemo initialChartState) 330 =
      [{ node := tDemo, start_angle := 0, end_angle := 2 * Real.pi,
         inner_radius := 0, outer_radius := 55, depth := 0 },
       { node := p1Node, start_angle := 0, end_angle := 2 * Real.pi,
         inner_radius := 55, outer_radius := 110, depth := 1 }] := by
    have hst : setData tDemo initialChartState =
        { data := some tDemo, zoomRoot := none, selectedPath := [] } := rfl
    rw [hst]
    show draw_node tDemo 0 (2 * Real.pi) 0 330 0 = _
    exact tDemo_layout
  have hcontains : contains_point (2 * Real.pi)
      ({ node := p1Node, start_angle := 0, end_angle := 2 * Real.pi,
         inner_radius := 55, outer_radius := 110, depth := 1 } : Segment ℝ) 80 1 = true := by
    simp only [contains_point, normAngle]
    split_ifs with h1 h2 h3
    · norm_num at h1
    · norm_num at h2
    · norm_num at h3
    · simp only [Bool.and_eq_true, decide_eq_true_eq]
      constructor
      · norm_num
      · nlinarith [Real.pi_gt_three]
  rw [hsegs]
  simp only [clickReleased, List.reverse_cons, List.reverse_nil, List.nil_append,
    List.cons_append, List.find?_cons, hcontains]
  norm_num
  rfl

/-- C7 (counterexample): `badState` — data loaded, zoom active on the "p1"
node, external selection `["x"]` — is reachable: load `tDemo`, click the
depth-1 "p1" ring of the genuine `2·π` layout at radius 330 (pointer at
distance 80, angle 1), then receive an external selection.
`set_selected_path` stores the path without consulting or clearing the
zoom, so an active zoom and a non-empty selection coexist, contradicting
the claimed invariant. -/
theorem zoom_and_selection_coexist :
    ReachableChartState badState ∧
      badState.zoomRoot ≠ none ∧ badState.selectedPath ≠ [] := by
  refine ⟨?_, by decide, by decide⟩
  have h1 : ReachableChartState (setData tDemo initialChartState) :=
    ReachableChartState.load tDemo ReachableChartState.init
  have h2 := ReachableChartState.click 330 80 1 h1
  rw [click_on_p1] at h2
  have h3 := ReachableChartState.select ["x"] h2
  exact h3

/-- C7 (amended): the zoom-changing click transitions and the explicit
banner reset do clear `selected_path` — whenever a click release changes
`zoom_root` the resulting `selected_path` is empty, and a reset always
leaves it empty — but zoom and external selection are not mutually
exclusive over all reachable states, because `set_selected_path` stores a
selection without consulting or clearing `zoom_root` (see the
counterexample). -/
theorem zoom_transitions_clear_selection {α : Type} [LinearOrderedField α]
    (segs : List (Segment α)) (twoPi dist ang : α) (st : ChartState) :
    ((clickReleased segs twoPi dist ang st).zoomRoot ≠ st.zoomRoot →
      (clickReleased segs twoPi dist ang st).selectedPath = []) ∧
    (bannerResetClicked st).selectedPath = [] := by
  constructor
  · intro h
    simp only [clickReleased] at h ⊢
    cases hf : segs.reverse.find? (fun seg => contains_point twoPi seg dist ang) with
    | none => rw [hf] at h; exact absurd rfl h
    | some seg =>
      by_cases hd : seg.depth = 0
      · simp [hd]
      · simp [hd]
  · rfl

/-- C7 (witness): the amended theorem applied to a concrete click that
zooms from the unzoomed state `stW2` into `segQ1`'s node. -/
theorem zoom_transitions_clear_selection_witness :
    (clickReleased [segQ1] (6 : ℚ) (3 / 2) (-4) stW2).zoomRoot ≠ stW2.zoomRoot ∧
      (clickReleased [segQ1] (6 : ℚ) (3 / 2) (-4) stW2).selectedPath = [] := by
  have hc : contains_point (6 : ℚ)
      ({ node := p1Node, start_angle := 0, end_angle := 3,
         inner_radius := 1, outer_radius := 2, depth := 1 } : Segment ℚ) (3 / 2) (-4) = true := by
    simp only [contains_point, normAngle]
    norm_num
  have hzoom : clickReleased [segQ1] (6 : ℚ) (3 / 2) (-4) stW2 =
      { stW2 with zoomRoot := some segQ1.node, selectedPath := [] } := by
    simp [clickReleased, List.find?, segQ1, hc]
  constructor
  · rw [hzoom]; simp [stW2, segQ1, p1Node]
  · exact (zoom_transitions_clear_selection [segQ1] (6 : ℚ) (3 / 2) (-4) stW2).1
      (by rw [hzoom]; simp [stW2, segQ1, p1Node])
